import Mathlib

/-!
Verification development for the huff-deployer Hardhat plugin
(src/helpers.ts and src/HuffDeployer.ts).

The repository shells out to the external "huffc" compiler, scans
"contracts/**/*.huff" files, matches a requested contract name
case-insensitively against each file's name, compiles the match, generates
and scrapes a companion interface file, and deploys the result.

The embedding below translates the JavaScript string manipulation of the
source faithfully (JS indexOf returning -1, JS slice clamping semantics,
String.prototype.replace replacing only the first occurrence, split on a
separator, toLowerCase restricted to its ASCII behaviour), and models the
effectful pipeline (subprocess invocations, file reads, deletions) as a
state-passing function producing an explicit effect trace, an explicit
result, and an explicit file-system state.  External behaviour that is not
code of this repository (the huffc binary, the ethers factory) is supplied
by oracles in an environment record; in particular the fact that a
successful "huffc --interface" run creates the sibling interface file is
modelled from the spec (section 4.4: "producing a sibling file").
-/

/-- Index (from a given start) of the first occurrence of the pattern in the
list, in the style of JavaScript String.prototype.indexOf: the result is the
least index at which the pattern is a prefix of the remaining list. -/
def firstOccur (pat : List Char) : List Char → Option Nat
  | [] => if pat.isPrefixOf ([] : List Char) then some 0 else none
  | c :: rest =>
    if pat.isPrefixOf (c :: rest) then some 0
    else (firstOccur pat rest).map (· + 1)

/-- JavaScript String.prototype.indexOf: first index of the pattern, or -1. -/
def jsIndexOf (s pat : String) : Int :=
  match firstOccur pat.data s.data with
  | some n => (n : Int)
  | none => -1

/-- JavaScript String.prototype.includes. -/
def jsIncludes (s pat : String) : Bool :=
  (firstOccur pat.data s.data).isSome

/-- Index of the last occurrence of a single character, computed through the
reversed list. -/
def lastIdxOfChar (c : Char) (L : List Char) : Option Nat :=
  (firstOccur [c] L.reverse).map (fun j => L.length - 1 - j)

/-- JavaScript String.prototype.lastIndexOf for a one-character pattern:
last index of the character, or -1. -/
def jsLastIndexOfChar (s : String) (c : Char) : Int :=
  match lastIdxOfChar c s.data with
  | some n => (n : Int)
  | none => -1

/-- Normalisation of one JavaScript slice index: negative indices count from
the end (clamped below by 0), nonnegative indices are clamped above by the
length. -/
def jsSliceIdx (len : Nat) (i : Int) : Nat :=
  if i < 0 then ((len : Int) + i).toNat else min i.toNat len

/-- JavaScript String.prototype.slice with two arguments, on character
lists: the characters from the normalised start (inclusive) to the
normalised end (exclusive); empty when the end does not exceed the start. -/
def jsSliceData (L : List Char) (a b : Int) : List Char :=
  (L.take (jsSliceIdx L.length b)).drop (jsSliceIdx L.length a)

/-- JavaScript String.prototype.slice with two arguments, on strings. -/
def jsSlice (s : String) (a b : Int) : String :=
  ⟨jsSliceData s.data a b⟩

/-- JavaScript String.prototype.slice with one argument (to the end). -/
def jsSliceFrom (s : String) (a : Int) : String :=
  ⟨s.data.drop (jsSliceIdx s.data.length a)⟩

/-- JavaScript String.prototype.replace with a plain-string pattern: only
the first occurrence of the pattern is replaced; the string is returned
unchanged when the pattern does not occur. -/
def jsReplaceFirst (s pat rep : String) : String :=
  match firstOccur pat.data s.data with
  | none => s
  | some i => ⟨s.data.take i ++ rep.data ++ s.data.drop (i + pat.data.length)⟩

/-- Split of a character list on a separator character, in the style of
JavaScript String.prototype.split with a one-character separator. -/
def splitOnChar (c : Char) : List Char → List (List Char)
  | [] => [[]]
  | x :: rest =>
    if x = c then [] :: splitOnChar c rest
    else
      match splitOnChar c rest with
      | [] => [[x]]
      | h :: t => (x :: h) :: t

/-- Lines of a string, as JavaScript contractInterface.split with a newline
separator produces them (src/helpers.ts line 122). -/
def jsLines (s : String) : List String :=
  (splitOnChar '\n' s.data).map (fun l => ⟨l⟩)

/-- JavaScript String.prototype.toLowerCase, restricted to its ASCII
behaviour (every name compared by the plugin is ASCII). -/
def jsToLower (s : String) : String :=
  ⟨s.data.map Char.toLower⟩

/-- JavaScript Array.prototype.join (src/helpers.ts line 53 joins the
constructor arguments with a single space). -/
def jsJoin (sep : String) : List String → String
  | [] => ""
  | [a] => a
  | a :: b :: rest => a ++ sep ++ jsJoin sep (b :: rest)

/-- Command string built by getContractBytecode in src/helpers.ts
(lines 45-64): with constructor arguments the space-joined arguments follow
the -i flag, otherwise no -i flag is emitted. -/
def buildBytecodeCommand (filePath : String) (constructorArgs : Option (List String)) : String :=
  match constructorArgs with
  | none => "huffc " ++ filePath ++ " --bytecode"
  | some args => "huffc " ++ filePath ++ " -i " ++ jsJoin " " args ++ " --bytecode"

/-- CompilerArg of src/HuffDeployer.ts lines 48-52: a key/value pair for the
compiler plus a selector between the long (--) and the short (-) flag form.
The TypeScript fields are typed number; integers model the values actually
rendered into the command. -/
structure CompilerArg where
  key : Int
  value : Int
  full : Bool
deriving DecidableEq

/-- Command string built by getContractBytecode in src/HuffDeployer.ts
(lines 85-131): as the helpers.ts variant, but a present compilerArgs array
contributes an argument string that starts with a space and accumulates,
for each flag in order, a space, the dash-prefixed key and the value. -/
def buildBytecodeCommandD (filePath : String) (constructorArgs : Option (List String))
    (compilerArgs : Option (List CompilerArg)) : String :=
  let argString : String :=
    match compilerArgs with
    | none => ""
    | some cas =>
      cas.foldl
        (fun acc a =>
          acc ++ " " ++ (if a.full then "--" else "-") ++ toString a.key
            ++ " " ++ toString a.value) " "
  match constructorArgs with
  | none => "huffc " ++ filePath ++ " --bytecode" ++ argString
  | some args => "huffc " ++ filePath ++ " -i " ++ jsJoin " " args ++ " --bytecode" ++ argString

/-- Interface-file path derived by getContractAbi (src/helpers.ts
lines 115-117): the first occurrence of ".huff" is replaced by ".sol", and
the regular expression replacement inserts the letter I right after the
last slash (leaving the string unchanged when it has no slash, since the
pattern then fails to match). -/
def interfaceFilePath (filePath : String) : String :=
  let replaced := jsReplaceFirst filePath ".huff" ".sol"
  match lastIdxOfChar '/' replaced.data with
  | none => replaced
  | some i => ⟨replaced.data.take (i + 1) ++ 'I' :: replaced.data.drop (i + 1)⟩

/-- Path that clean (src/HuffDeployer.ts lines 195-208) deletes: the first
occurrence of "huff" (no leading dot in the pattern) is replaced by "sol",
then the letter I is spliced in right after the last slash using slice
(prepending I to the whole string when there is no slash, since lastIndexOf
returns -1). -/
def cleanTargetPath (filePath : String) : String :=
  let f1 := jsReplaceFirst filePath "huff" "sol"
  let lastSlashIndex : Int := jsLastIndexOfChar f1 '/'
  jsSlice f1 0 (lastSlashIndex + 1) ++ "I" ++ jsSliceFrom f1 (lastSlashIndex + 1)

/-- ABI scraped by getContractAbi (src/helpers.ts lines 121-128): every
line containing the word "function" contributes the slice of the line from
the first index of "function" to the first index of the semicolon in the
whole line. -/
def extractAbi (content : String) : List String :=
  ((jsLines content).filter (fun l => jsIncludes l "function")).map
    (fun l => jsSlice l (jsIndexOf l "function") (jsIndexOf l ";"))

/-- Contract name computed inside the deploy loop (src/helpers.ts
lines 150-153): the slice from just after the last slash to the first index
of ".huff" in the whole path. -/
def contractNameOf (filePath : String) : String :=
  jsSlice filePath (jsLastIndexOfChar filePath '/' + 1) (jsIndexOf filePath ".huff")

/-- Match test of the deploy loop (src/helpers.ts line 155): the lowercased
request equals the lowercased computed contract name. -/
def codeMatches (targetContract filePath : String) : Bool :=
  jsToLower targetContract == jsToLower (contractNameOf filePath)

/-- Observable effect of one step of the pipeline: a subprocess invocation
(version check, bytecode compile, interface generation), a file-system scan,
a file read, a deployment attempt, or a file deletion. -/
inductive Effect where
  | execVersion : Effect
  | scanFiles : Effect
  | execBytecode (cmd : String) : Effect
  | execInterface (path : String) : Effect
  | readFile (path : String) : Effect
  | deployContract (abi : List String) (bytecode : String) : Effect
  | unlink (path : String) : Effect
deriving DecidableEq

/-- Deployed-contract handle: opaque to the plugin; the model keys it by
the source path it was produced from together with the scraped ABI and the
compiled bytecode handed to the factory. -/
structure Contract where
  path : String
  abi : List String
  bytecode : String
deriving DecidableEq

/-- Errors surfaced by the pipeline: a HardhatPluginError with its plugin
name and message, or a plain JavaScript Error carrying a message. -/
inductive DeployError where
  | hardhatPlugin (plugin msg : String) : DeployError
  | jsError (msg : String) : DeployError
deriving DecidableEq

/-- Environment supplying the behaviour of everything external to the
repository: the huffc version check, the glob scan result, the initial
file system, the per-command bytecode compile result, the per-file
interface-generation result, the content the compiler wrote into a
generated interface file, and the per-file factory.deploy result (none
means success, some e means the deploy raised with message e). -/
structure Env where
  versionErr : Bool
  versionStdout : String
  files : List String
  fs0 : List String
  bytecodeResult : String → Except String String
  interfaceErr : String → Bool
  interfaceErrMsg : String → String
  interfaceContent : String → String
  deployErr : String → Option String

/-- Message of the HardhatPluginError raised when huffc is missing
(src/helpers.ts lines 17-20). -/
def huffNotFoundMsg : String :=
  "Huff compiler not found. Please install it from https://github.com/huff-language/huff-rs"

/-- Message of the HardhatPluginError raised when the legacy TypeScript
compiler is detected (src/helpers.ts lines 23-26). -/
def tsHuffMsg : String :=
  "TS Huff not supported. Please install the Rust compiler from https://github.com/huff-language/huff-rs"

/-- Outcome of the huffc availability check, verifyHuffCompiler of
src/helpers.ts lines 12-32: an error when the binary is absent or exits
nonzero, an error when the reported version contains "0.0.", success
otherwise. -/
def verifyHuffCompiler (env : Env) : Except DeployError Unit :=
  if env.versionErr then
    .error (.hardhatPlugin "huff-deployer" huffNotFoundMsg)
  else if jsIncludes env.versionStdout "0.0." then
    .error (.hardhatPlugin "huff-deployer" tsHuffMsg)
  else
    .ok ()

/-- Basename of a path in the sense of the spec and the claims: the part
after the last slash (the whole path when there is no slash).  Stated from
the claim wording to express the claims' match predicate; the code under
test never computes this. -/
def specBasename (p : String) : String :=
  ⟨p.data.drop (match lastIdxOfChar '/' p.data with
                | some i => i + 1
                | none => 0)⟩

/-- Basename stripped of the trailing ".huff" extension, in the sense of
the spec and the claims (stated from the claim wording). -/
def specStem (p : String) : String :=
  if (".huff").data.isSuffixOf (specBasename p).data then
    ⟨(specBasename p).data.take ((specBasename p).data.length - 5)⟩
  else specBasename p

/-- Modelled from the spec: the sibling file a successful "huffc
--interface" run creates; the external compiler's behaviour is not code of
this repository, and section 4.4 fixes its naming convention as "same
directory, filename prefixed with an interface marker, source extension
replaced with the companion high-level-language extension", that is
dir/I<basename stripped of .huff>.sol. -/
def specSiblingPath (p : String) : String :=
  ⟨p.data.take (match lastIdxOfChar '/' p.data with
                | some i => i + 1
                | none => 0) ++ 'I' :: ((specStem p).data ++ (".sol").data)⟩

/-- Insertion of a path into the modelled file system (no duplicates). -/
def insertFile (p : String) (fs : List String) : List String :=
  if p ∈ fs then fs else p :: fs

/-- Model of getContractAbi (src/helpers.ts lines 114-129): the interface
file path is derived from the source path, that file is read from the file
system (fs.readFileSync throws when it is absent), and the ABI is scraped
from its content.  The read attempt is recorded as an effect either way. -/
def getContractAbi (env : Env) (fs : List String) (filePath : String) :
    Except String (List String) × List Effect :=
  let ifp := interfaceFilePath filePath
  if ifp ∈ fs then
    (.ok (extractAbi (env.interfaceContent ifp)), [.readFile ifp])
  else
    (.error ("ENOENT: no such file or directory, open " ++ ifp), [.readFile ifp])

/-- Loop of deploy (src/helpers.ts lines 149-178) over the discovered huff
files: every file whose computed contract name matches the lowercased
request is compiled, its interface is generated (on success the external
compiler writes the sibling file at the spec naming convention, modelled by
specSiblingPath), its ABI is scraped by reading the path the CODE derives
(interfaceFilePath, which fs.readFileSync fails on with ENOENT when it
differs from the written sibling), and a deployment is attempted; the
contract handle variable is overwritten on each successful iteration.  Any
step error aborts the whole call.  The accumulated effect trace and file
system are returned alongside the result. -/
def deployLoop (env : Env) (targetContract : String) (cargs : Option (List String)) :
    List String → Option Contract → List Effect → List String →
    Except DeployError (Option Contract) × List Effect × List String
  | [], contract, tr, fs => (.ok contract, tr, fs)
  | filePath :: rest, contract, tr, fs =>
    if codeMatches targetContract filePath then
      let cmd := buildBytecodeCommand filePath cargs
      match env.bytecodeResult cmd with
      | .error e => (.error (.jsError e), tr ++ [.execBytecode cmd], fs)
      | .ok bytecode =>
        if env.interfaceErr filePath then
          (.error (.jsError (env.interfaceErrMsg filePath)),
           tr ++ [.execBytecode cmd, .execInterface filePath], fs)
        else
          let fs1 := insertFile (specSiblingPath filePath) fs
          match getContractAbi env fs1 filePath with
          | (.error e, effs) =>
            (.error (.jsError e),
             tr ++ [.execBytecode cmd, .execInterface filePath] ++ effs, fs1)
          | (.ok abi, effs) =>
            match env.deployErr filePath with
            | some e =>
              (.error (.jsError ("Error deploying " ++ targetContract ++ ": " ++ e)),
               tr ++ [.execBytecode cmd, .execInterface filePath] ++ effs
                  ++ [.deployContract abi bytecode], fs1)
            | none =>
              deployLoop env targetContract cargs rest
                (some { path := filePath, abi := abi, bytecode := bytecode })
                (tr ++ [.execBytecode cmd, .execInterface filePath] ++ effs
                    ++ [.deployContract abi bytecode]) fs1
    else
      deployLoop env targetContract cargs rest contract tr fs

instance {ε α : Type} [DecidableEq ε] [DecidableEq α] : DecidableEq (Except ε α) := fun
  | .error a, .error b =>
    if h : a = b then .isTrue (by rw [h]) else .isFalse (by intro hc; cases hc; exact h rfl)
  | .error _, .ok _ => .isFalse (by intro hc; cases hc)
  | .ok _, .error _ => .isFalse (by intro hc; cases hc)
  | .ok a, .ok b =>
    if h : a = b then .isTrue (by rw [h]) else .isFalse (by intro hc; cases hc; exact h rfl)

/-- Whole-call outcome: the result, the effect trace, and the final file
system. -/
structure DeployOutcome where
  result : Except DeployError Contract
  trace : List Effect
  fs : List String
deriving DecidableEq

/-- Model of deploy (src/helpers.ts lines 137-188): verify the compiler,
scan for huff files, run the matching loop, and raise the not-found
HardhatPluginError when the contract handle variable was never assigned. -/
def deployOutcome (env : Env) (targetContract : String) (cargs : Option (List String)) :
    DeployOutcome :=
  match verifyHuffCompiler env with
  | .error e => { result := .error e, trace := [.execVersion], fs := env.fs0 }
  | .ok _ =>
    match deployLoop env targetContract cargs env.files none
        [.execVersion, .scanFiles] env.fs0 with
    | (.error e, tr, fs) => { result := .error e, trace := tr, fs := fs }
    | (.ok none, tr, fs) =>
      { result := .error (.hardhatPlugin "HuffDeployer"
          ("Contract " ++ targetContract ++ " not found.")),
        trace := tr, fs := fs }
    | (.ok (some c), tr, fs) => { result := .ok c, trace := tr, fs := fs }

/-- Public entry point HuffDeployer.deploy (src/HuffDeployer.ts
lines 23-34): after defaulting the signer it delegates to the helpers
deploy pipeline unchanged; the signer plays no role in any file-system or
subprocess behaviour, so it is not modelled. -/
def huffDeployerDeploy (env : Env) (targetContract : String)
    (cargs : Option (List String)) : DeployOutcome :=
  deployOutcome env targetContract cargs

/-- Match predicate of the claims: the basename stripped of the ".huff"
extension equals the requested name case-insensitively (stated from the
claim wording). -/
def specMatch (targetContract p : String) : Bool :=
  jsToLower targetContract == jsToLower (specStem p)

/-- Spec-side fragment of an ABI line: the span from the first occurrence
of "function" up to the first statement terminator occurring from there on
(stated from the claim wording for claim C3). -/
def specFragment (l : String) : String :=
  ⟨(l.data.drop ((firstOccur ("function").data l.data).getD 0)).takeWhile (· != ';')⟩

/-- Well-formed discovered path: a directory part, a slash, a slash-free
base name, and the ".huff" extension, such that ".huff" occurs nowhere
earlier in the path. -/
abbrev WFPath (p : String) (d b : List Char) : Prop :=
  p.data = d ++ '/' :: (b ++ (".huff").data) ∧ '/' ∉ b ∧
    firstOccur (".huff").data p.data = some (d.length + 1 + b.length)

/-- Existence form of well-formedness. -/
def WF (p : String) : Prop := ∃ d b, WFPath p d b

/-- Compiler-availability success: the version subprocess did not error and
its output does not betray the legacy TypeScript compiler. -/
def compilerOk (env : Env) : Prop :=
  env.versionErr = false ∧ jsIncludes env.versionStdout "0.0." = false

/-- Bytecode string an environment yields for a file (defaulting to the
empty string on compile failure; only used under success hypotheses). -/
def bcOf (env : Env) (cargs : Option (List String)) (f : String) : String :=
  ((env.bytecodeResult (buildBytecodeCommand f cargs)).toOption).getD ""

/-- ABI an environment yields for a file through the scraped interface. -/
def abiOf (env : Env) (f : String) : List String :=
  extractAbi (env.interfaceContent (interfaceFilePath f))

/-- Contract handle produced for a matching file under success oracles. -/
def contractOf (env : Env) (cargs : Option (List String)) (f : String) : Contract :=
  { path := f, abi := abiOf env f, bytecode := bcOf env cargs f }

/-- Effect block of one successful matching iteration of the deploy loop. -/
def matchBlock (env : Env) (cargs : Option (List String)) (f : String) : List Effect :=
  [.execBytecode (buildBytecodeCommand f cargs), .execInterface f,
   .readFile (interfaceFilePath f), .deployContract (abiOf env f) (bcOf env cargs f)]

/-- Concrete all-success environment over a given file list: the compiler is
present (a Rust version banner), every compile yields the bytecode "60ff",
interface generation always succeeds, generated interface files are empty,
and every factory deployment succeeds. -/
def mkEnv (files : List String) : Env :=
  { versionErr := false, versionStdout := "huffc 0.3.0", files := files, fs0 := [],
    bytecodeResult := fun _ => .ok "60ff", interfaceErr := fun _ => false,
    interfaceErrMsg := fun _ => "", interfaceContent := fun _ => "",
    deployErr := fun _ => none }

/-- Rendering of one compiler flag as it appears in the command string of
src/HuffDeployer.ts lines 97-100: a space, then the key behind a double dash
when the full selector holds and behind a single dash otherwise, then a
space and the value. -/
def renderCompilerArg (a : CompilerArg) : String :=
  " " ++ (if a.full then "--" else "-") ++ toString a.key ++ " " ++ toString a.value

/-! Basic lemmas about the JavaScript string primitives. -/

theorem firstOccur_isPrefix {pat : List Char} :
    ∀ {L : List Char} {n : Nat}, firstOccur pat L = some n → pat <+: L.drop n := by
  intro L
  induction L with
  | nil =>
    intro n h
    simp only [firstOccur] at h
    split_ifs at h with hp
    · cases h
      exact List.isPrefixOf_iff_prefix.mp hp
  | cons c rest ih =>
    intro n h
    simp only [firstOccur] at h
    split_ifs at h with hp
    · cases h
      exact List.isPrefixOf_iff_prefix.mp hp
    · rcases Option.map_eq_some'.mp h with ⟨m, hm, hmn⟩
      subst hmn
      simpa using ih hm

theorem firstOccur_min {pat : List Char} :
    ∀ {L : List Char} {n : Nat}, firstOccur pat L = some n →
      ∀ j, pat <+: L.drop j → n ≤ j := by
  intro L
  induction L with
  | nil =>
    intro n h j _
    simp only [firstOccur] at h
    split_ifs at h
    · cases h
      exact Nat.zero_le j
  | cons c rest ih =>
    intro n h j hj
    simp only [firstOccur] at h
    split_ifs at h with hp
    · cases h
      exact Nat.zero_le j
    · rcases Option.map_eq_some'.mp h with ⟨m, hm, hmn⟩
      subst hmn
      cases j with
      | zero =>
        exact absurd (List.isPrefixOf_iff_prefix.mpr (by simpa using hj)) hp
      | succ j =>
        exact Nat.succ_le_succ (ih hm j (by simpa using hj))

theorem firstOccur_of_prefix {pat : List Char} :
    ∀ {L : List Char} {j : Nat}, pat <+: L.drop j →
      ∃ n, firstOccur pat L = some n ∧ n ≤ j := by
  intro L
  induction L with
  | nil =>
    intro j hj
    simp only [List.drop_nil] at hj
    exact ⟨0, by simp [firstOccur, List.isPrefixOf_iff_prefix.mpr hj], Nat.zero_le j⟩
  | cons c rest ih =>
    intro j hj
    by_cases hp : pat.isPrefixOf (c :: rest)
    · exact ⟨0, by simp [firstOccur, hp], Nat.zero_le j⟩
    · cases j with
      | zero =>
        exact absurd (List.isPrefixOf_iff_prefix.mpr (by simpa using hj)) hp
      | succ j =>
        rcases ih (by simpa using hj) with ⟨m, hm, hmj⟩
        exact ⟨m + 1, by simp [firstOccur, hp, hm], Nat.succ_le_succ hmj⟩

theorem firstOccur_char_append {c : Char} :
    ∀ {X : List Char} (Y : List Char), c ∉ X →
      firstOccur [c] (X ++ c :: Y) = some X.length := by
  intro X
  induction X with
  | nil =>
    intro Y _
    simp [firstOccur, List.isPrefixOf]
  | cons x X ih =>
    intro Y hn
    have hx : ¬ (c = x) := fun h => hn (by simp [h.symm])
    have hX : c ∉ X := fun h => hn (List.mem_cons_of_mem _ h)
    have hpre : ([c].isPrefixOf (x :: (X ++ c :: Y))) = false := by
      simp [List.isPrefixOf, hx]
    simp [List.cons_append, firstOccur, hpre, ih Y hX]

theorem lastIdxOfChar_append {c : Char} {A S : List Char} (h : c ∉ S) :
    lastIdxOfChar c (A ++ c :: S) = some A.length := by
  unfold lastIdxOfChar
  have hrev : (A ++ c :: S).reverse = S.reverse ++ c :: A.reverse := by
    simp [List.reverse_append]
  have hS : c ∉ S.reverse := by simpa using h
  rw [hrev, firstOccur_char_append A.reverse hS, Option.map_some']
  have harith : (A ++ c :: S).length - 1 - S.reverse.length = A.length := by
    simp [List.length_append]
  rw [harith]

theorem jsSliceData_nat {L : List Char} {a b : Nat} (ha : a ≤ L.length) (hb : b ≤ L.length) :
    jsSliceData L (a : Int) (b : Int) = (L.take b).drop a := by
  have hna : ¬ ((a : Int) < 0) := by omega
  have hnb : ¬ ((b : Int) < 0) := by omega
  simp [jsSliceData, jsSliceIdx, hna, hnb, Int.toNat_ofNat, Nat.min_eq_left ha,
    Nat.min_eq_left hb]

theorem take_wf (d b h : List Char) :
    (d ++ '/' :: (b ++ h)).take (d.length + 1 + b.length) = d ++ '/' :: b := by
  have hassoc : d ++ '/' :: (b ++ h) = (d ++ '/' :: b) ++ h := by simp
  rw [hassoc]
  exact List.take_left' (by simp; omega)

theorem drop_wf (d X : List Char) :
    (d ++ '/' :: X).drop (d.length + 1) = X := by
  have hassoc : d ++ '/' :: X = (d ++ ['/']) ++ X := by simp
  rw [hassoc]
  exact List.drop_left' (by simp)

/-! Lemmas about well-formed discovered paths. -/

theorem data_mk (L : List Char) : (⟨L⟩ : String).data = L := rfl

theorem wf_lastIdx {p : String} {d b : List Char} (h : WFPath p d b) :
    lastIdxOfChar '/' p.data = some d.length := by
  have hh : '/' ∉ (".huff").data := by decide
  have hslash : '/' ∉ b ++ (".huff").data := by
    intro hm
    rcases List.mem_append.mp hm with hm | hm
    · exact h.2.1 hm
    · exact hh hm
  rw [h.1]
  exact lastIdxOfChar_append hslash

theorem wf_length {p : String} {d b : List Char} (h : WFPath p d b) :
    p.data.length = d.length + 1 + b.length + 5 := by
  have h5 : (".huff").data.length = 5 := rfl
  rw [h.1]
  simp [List.length_append, h5]
  omega

theorem contractNameOf_wf {p : String} {d b : List Char} (h : WFPath p d b) :
    contractNameOf p = ⟨b⟩ := by
  have hidx : jsIndexOf p ".huff" = ((d.length + 1 + b.length : Nat) : Int) := by
    unfold jsIndexOf
    rw [h.2.2]
  have hlast : jsLastIndexOfChar p '/' = (d.length : Int) := by
    unfold jsLastIndexOfChar
    rw [wf_lastIdx h]
  have hc : ((d.length : Int) + 1) = ((d.length + 1 : Nat) : Int) := by push_cast; ring
  have hlen := wf_length h
  have hsl : (p.data.take (d.length + 1 + b.length)).drop (d.length + 1) = b := by
    rw [h.1, take_wf, drop_wf]
  unfold contractNameOf jsSlice
  rw [hidx, hlast, hc, jsSliceData_nat (by omega) (by omega), hsl]

theorem specStem_wf {p : String} {d b : List Char} (h : WFPath p d b) :
    specStem p = ⟨b⟩ := by
  have hbase : specBasename p = ⟨b ++ (".huff").data⟩ := by
    unfold specBasename
    rw [wf_lastIdx h, h.1, drop_wf]
  have hsuf : (".huff").data.isSuffixOf (b ++ (".huff").data) = true :=
    List.isSuffixOf_iff_suffix.mpr (List.suffix_append _ _)
  have h5 : (".huff").data.length = 5 := rfl
  have htake : (b ++ (".huff").data).take ((b ++ (".huff").data).length - 5) = b := by
    apply List.take_left'
    simp [List.length_append, h5]
  unfold specStem
  rw [hbase, data_mk, hsuf, if_pos rfl, htake]

theorem codeMatches_eq_specMatch {p : String} (h : WF p) (t : String) :
    codeMatches t p = specMatch t p := by
  obtain ⟨d, b, hw⟩ := h
  unfold codeMatches specMatch
  rw [contractNameOf_wf hw, specStem_wf hw]

/-! Lemmas about the deploy loop. -/

theorem mem_insertFile (p : String) (fs : List String) : p ∈ insertFile p fs := by
  unfold insertFile
  split
  · assumption
  · exact List.mem_cons_self _ _

theorem deployLoop_skip (env : Env) (target : String) (cargs : Option (List String)) :
    ∀ (files : List String) (acc : Option Contract) (tr : List Effect) (fs : List String),
      (∀ f ∈ files, codeMatches target f = false) →
      deployLoop env target cargs files acc tr fs = (.ok acc, tr, fs) := by
  intro files
  induction files with
  | nil => intro acc tr fs _; rfl
  | cons f rest ih =>
    intro acc tr fs h
    have hf : codeMatches target f = false := h f (by simp)
    simp only [deployLoop, hf, Bool.false_eq_true, if_false]
    exact ih acc tr fs (fun g hg => h g (by simp [hg]))

theorem deployLoop_char (env : Env) (target : String) (cargs : Option (List String)) :
    ∀ (files : List String) (acc : Option Contract) (tr : List Effect) (fs : List String),
      (∀ f ∈ files, codeMatches target f = true →
          env.bytecodeResult (buildBytecodeCommand f cargs) = .ok (bcOf env cargs f) ∧
          env.interfaceErr f = false ∧ env.deployErr f = none ∧
          interfaceFilePath f = specSiblingPath f) →
      deployLoop env target cargs files acc tr fs =
        (.ok (files.foldl
            (fun a f => if codeMatches target f then some (contractOf env cargs f) else a) acc),
         tr ++ files.flatMap
            (fun f => if codeMatches target f then matchBlock env cargs f else []),
         files.foldl
            (fun s f => if codeMatches target f then insertFile (interfaceFilePath f) s else s)
           fs) := by
  intro files
  induction files with
  | nil => intro acc tr fs _; simp [deployLoop]
  | cons f rest ih =>
    intro acc tr fs h
    by_cases hm : codeMatches target f = true
    · obtain ⟨hbc, hie, hde, heq⟩ := h f (by simp) hm
      have hmem : interfaceFilePath f ∈ insertFile (specSiblingPath f) fs := by
        rw [heq]
        exact mem_insertFile _ _
      simp only [deployLoop, hm, if_true, hbc, hie, Bool.false_eq_true, if_false,
        getContractAbi, hmem, hde]
      rw [ih _ _ _ (fun g hg => h g (by simp [hg]))]
      simp only [List.foldl_cons, List.flatMap_cons, hm, if_true, matchBlock, contractOf,
        abiOf, heq]
      simp [List.append_assoc]
    · have hm' : codeMatches target f = false := by
        cases hcm : codeMatches target f
        · rfl
        · exact absurd hcm hm
      simp only [deployLoop, hm', Bool.false_eq_true, if_false]
      rw [ih _ _ _ (fun g hg => h g (by simp [hg]))]
      simp [hm', List.foldl_cons, List.flatMap_cons]

theorem foldl_if_last {α β : Type} (q : α → Bool) (g : α → β) :
    ∀ (files : List α) (acc : Option β),
      files.foldl (fun a f => if q f then some (g f) else a) acc =
        match (files.filter q).getLast? with
        | some m => some (g m)
        | none => acc := by
  intro files
  induction files with
  | nil => intro acc; rfl
  | cons f rest ih =>
    intro acc
    rw [List.foldl_cons, ih]
    by_cases hf : q f = true
    · cases hl : (rest.filter q).getLast? with
      | none => simp [List.filter_cons, hf, List.getLast?_cons, hl]
      | some m => simp [List.filter_cons, hf, List.getLast?_cons, hl]
    · cases hl : (rest.filter q).getLast? <;>
        simp [List.filter_cons, hf, hl]

theorem flatMap_if_filter {α β : Type} (q : α → Bool) (g : α → List β) :
    ∀ files : List α,
      (files.flatMap fun f => if q f then g f else []) = (files.filter q).flatMap g := by
  intro files
  induction files with
  | nil => rfl
  | cons f rest ih => by_cases hf : q f = true <;> simp [List.filter_cons, hf, ih]

theorem foldl_if_filter {α β : Type} (q : α → Bool) (g : β → α → β) :
    ∀ (files : List α) (s : β),
      files.foldl (fun s f => if q f then g s f else s) s = (files.filter q).foldl g s := by
  intro files
  induction files with
  | nil => intro s; rfl
  | cons f rest ih => intro s; by_cases hf : q f = true <;> simp [List.filter_cons, hf, ih]

theorem deployOutcome_char (env : Env) (target : String) (cargs : Option (List String))
    (hok : compilerOk env)
    (hor : ∀ f ∈ env.files, codeMatches target f = true →
        env.bytecodeResult (buildBytecodeCommand f cargs) = .ok (bcOf env cargs f) ∧
        env.interfaceErr f = false ∧ env.deployErr f = none ∧
        interfaceFilePath f = specSiblingPath f) :
    deployOutcome env target cargs =
      { result :=
          match (env.files.filter (fun f => codeMatches target f)).getLast? with
          | some m => .ok (contractOf env cargs m)
          | none => .error (.hardhatPlugin "HuffDeployer"
              ("Contract " ++ target ++ " not found.")),
        trace := [.execVersion, .scanFiles] ++
          (env.files.filter (fun f => codeMatches target f)).flatMap (matchBlock env cargs),
        fs := (env.files.filter (fun f => codeMatches target f)).foldl
          (fun s f => insertFile (interfaceFilePath f) s) env.fs0 } := by
  obtain ⟨h1, h2⟩ := hok
  unfold deployOutcome verifyHuffCompiler
  rw [h1, h2]
  simp only [Bool.false_eq_true, if_false]
  rw [deployLoop_char env target cargs env.files none _ _ hor]
  rw [foldl_if_last, flatMap_if_filter, foldl_if_filter]
  cases hl : (env.files.filter (fun f => codeMatches target f)).getLast? with
  | none => simp
  | some m => simp

theorem getContractAbi_effects (env : Env) (fs : List String) (f : String) :
    (getContractAbi env fs f).2 = [.readFile (interfaceFilePath f)] := by
  unfold getContractAbi
  by_cases hmem : interfaceFilePath f ∈ fs <;> simp [hmem]

theorem getContractAbi_ok_mem {env : Env} {fs : List String} {f : String} {abi : List String}
    (h : (getContractAbi env fs f).1 = .ok abi) : interfaceFilePath f ∈ fs := by
  unfold getContractAbi at h
  by_cases hmem : interfaceFilePath f ∈ fs
  · exact hmem
  · simp [hmem] at h

theorem deployLoop_inv (env : Env) (target : String) (cargs : Option (List String)) :
    ∀ (files : List String) (acc : Option Contract) (tr : List Effect) (fs : List String)
      (r : Except DeployError (Option Contract)) (tr' : List Effect) (fs' : List String),
      deployLoop env target cargs files acc tr fs = (r, tr', fs') →
      (∀ p, Effect.unlink p ∉ tr) →
      (∀ c, acc = some c → interfaceFilePath c.path ∈ fs) →
      (∀ p, Effect.unlink p ∉ tr') ∧
        (∀ c, r = .ok (some c) → interfaceFilePath c.path ∈ fs') := by
  intro files
  induction files with
  | nil =>
    intro acc tr fs r tr' fs' h hu ha
    simp only [deployLoop] at h
    injection h with h1 h23
    injection h23 with h2 h3
    subst h1; subst h2; subst h3
    refine ⟨hu, fun c hc => ha c ?_⟩
    injection hc
  | cons f rest ih =>
    intro acc tr fs r tr' fs' h hu ha
    by_cases hm : codeMatches target f = true
    · simp only [deployLoop, hm, if_true] at h
      cases hb : env.bytecodeResult (buildBytecodeCommand f cargs) with
      | error e =>
        rw [hb] at h
        injection h with h1 h23
        injection h23 with h2 h3
        subst h1; subst h2; subst h3
        refine ⟨fun p hp => ?_, fun c hc => by simp at hc⟩
        rcases List.mem_append.mp hp with hp | hp
        · exact hu p hp
        · simp at hp
      | ok bytecode =>
        rw [hb] at h
        cases hi : env.interfaceErr f with
        | true =>
          rw [hi] at h
          simp only [if_true] at h
          injection h with h1 h23
          injection h23 with h2 h3
          subst h1; subst h2; subst h3
          refine ⟨fun p hp => ?_, fun c hc => by simp at hc⟩
          rcases List.mem_append.mp hp with hp | hp
          · exact hu p hp
          · simp at hp
        | false =>
          rw [hi] at h
          simp only [Bool.false_eq_true, if_false] at h
          rcases hg : getContractAbi env (insertFile (specSiblingPath f) fs) f with ⟨res, effs⟩
          have heffs : effs = [.readFile (interfaceFilePath f)] := by
            have hteff := getContractAbi_effects env (insertFile (specSiblingPath f) fs) f
            rw [hg] at hteff
            exact hteff
          rw [hg] at h
          cases res with
          | error e =>
            injection h with h1 h23
            injection h23 with h2 h3
            subst h1; subst h2; subst h3
            refine ⟨fun p hp => ?_, fun c hc => by simp at hc⟩
            rcases List.mem_append.mp hp with hp | hp
            · rcases List.mem_append.mp hp with hp | hp
              · exact hu p hp
              · simp at hp
            · rw [heffs] at hp
              simp at hp
          | ok abi =>
            cases hd : env.deployErr f with
            | some e =>
              rw [hd] at h
              injection h with h1 h23
              injection h23 with h2 h3
              subst h1; subst h2; subst h3
              refine ⟨fun p hp => ?_, fun c hc => by simp at hc⟩
              rcases List.mem_append.mp hp with hp | hp
              · rcases List.mem_append.mp hp with hp | hp
                · rcases List.mem_append.mp hp with hp | hp
                  · exact hu p hp
                  · simp at hp
                · rw [heffs] at hp
                  simp at hp
              · simp at hp
            | none =>
              rw [hd] at h
              have hok1 : (getContractAbi env (insertFile (specSiblingPath f) fs) f).1
                  = .ok abi := by
                rw [hg]
              have hmemifp : interfaceFilePath f ∈ insertFile (specSiblingPath f) fs :=
                getContractAbi_ok_mem hok1
              refine ih _ _ _ _ _ _ h (fun p hp => ?_) (fun c hc => ?_)
              · rcases List.mem_append.mp hp with hp | hp
                · rcases List.mem_append.mp hp with hp | hp
                  · rcases List.mem_append.mp hp with hp | hp
                    · exact hu p hp
                    · simp at hp
                  · rw [heffs] at hp
                    simp at hp
                · simp at hp
              · injection hc with hc
                subst hc
                exact hmemifp
    · have hm' : codeMatches target f = false := by
        cases hcm : codeMatches target f
        · rfl
        · exact absurd hcm hm
      simp only [deployLoop, hm', Bool.false_eq_true, if_false] at h
      exact ih _ _ _ _ _ _ h hu ha

/-! Lemmas about string concatenation and joining. -/

theorem string_data_ext : ∀ {a b : String}, a.data = b.data → a = b := by
  intro a b h
  cases a
  cases b
  exact congrArg String.mk h

theorem intercalate_go_append :
    ∀ (as : List String) (x acc s : String),
      String.intercalate.go (x ++ acc) s as = x ++ String.intercalate.go acc s as := by
  intro as
  induction as with
  | nil => intro x acc s; rfl
  | cons a as ih =>
    intro x acc s
    show String.intercalate.go (x ++ acc ++ s ++ a) s as
        = x ++ String.intercalate.go (acc ++ s ++ a) s as
    rw [String.append_assoc x acc s, String.append_assoc x (acc ++ s) a, ih]

theorem jsJoin_eq_intercalate :
    ∀ (l : List String) (sep : String), jsJoin sep l = String.intercalate sep l := by
  intro l
  induction l with
  | nil => intro sep; rfl
  | cons a rest ih =>
    intro sep
    cases rest with
    | nil => rfl
    | cons b t =>
      show a ++ sep ++ jsJoin sep (b :: t) = String.intercalate.go a sep (b :: t)
      rw [ih sep]
      show a ++ sep ++ String.intercalate.go b sep t
          = String.intercalate.go (a ++ sep ++ b) sep t
      rw [intercalate_go_append t (a ++ sep) b sep]

theorem string_foldl_append :
    ∀ (l : List String) (x : String),
      l.foldl (fun r s => r ++ s) x = x ++ l.foldl (fun r s => r ++ s) "" := by
  intro l
  induction l with
  | nil => intro x; simp [String.append_empty]
  | cons a rest ih =>
    intro x
    rw [List.foldl_cons, List.foldl_cons, ih (x ++ a), ih ("" ++ a),
      String.empty_append, String.append_assoc]

theorem string_join_cons (a : String) (l : List String) :
    String.join (a :: l) = a ++ String.join l := by
  show (a :: l).foldl (fun r s => r ++ s) "" = a ++ l.foldl (fun r s => r ++ s) ""
  rw [List.foldl_cons, String.empty_append, string_foldl_append]

/-! Lemmas for the ABI fragment extraction. -/

theorem firstOccur_drop {c : Char} :
    ∀ (i : Nat) {L : List Char} {j : Nat}, firstOccur [c] L = some j → i ≤ j →
      firstOccur [c] (L.drop i) = some (j - i) := by
  intro i
  induction i with
  | zero => intro L j h _; simpa using h
  | succ i ih =>
    intro L j h hij
    cases L with
    | nil => simp [firstOccur] at h
    | cons x t =>
      simp only [firstOccur] at h
      split_ifs at h with hp
      · cases h; omega
      · rcases Option.map_eq_some'.mp h with ⟨m, hm, hmj⟩
        have hdrop : (x :: t).drop (i + 1) = t.drop i := rfl
        rw [hdrop, ih hm (by omega)]
        congr 1
        omega

theorem takeWhile_firstOccur {c : Char} :
    ∀ {L : List Char} {j : Nat}, firstOccur [c] L = some j →
      L.takeWhile (fun x => x != c) = L.take j := by
  intro L
  induction L with
  | nil => intro j h; simp [firstOccur] at h
  | cons x t ih =>
    intro j h
    simp only [firstOccur] at h
    split_ifs at h with hp
    · cases h
      have hx : x = c := by
        simp [List.isPrefixOf] at hp
        exact hp.symm
      simp [List.takeWhile_cons, hx]
    · rcases Option.map_eq_some'.mp h with ⟨m, hm, hmj⟩
      subst hmj
      have hx : ¬ (c = x) := fun hcx => hp (by simp [List.isPrefixOf, hcx])
      have hxc : (x != c) = true := by
        simp [bne]
        exact fun hxx => hx hxx.symm
      simp [List.takeWhile_cons, hxc, ih hm]

theorem fragment_eq {l : String} {i j : Nat}
    (hf : firstOccur ("function").data l.data = some i)
    (hs : firstOccur (";").data l.data = some j)
    (hij : i < j) :
    jsSlice l (jsIndexOf l "function") (jsIndexOf l ";") = specFragment l := by
  have hs' : firstOccur [';'] l.data = some j := hs
  have hjlt : j < l.data.length := by
    by_contra hh
    push_neg at hh
    have hnil := List.drop_eq_nil_of_le hh
    have hpre := firstOccur_isPrefix hs'
    rw [hnil] at hpre
    rcases hpre with ⟨t, ht⟩
    simp at ht
  unfold jsSlice jsIndexOf
  rw [hf, hs]
  rw [jsSliceData_nat (by omega) (by omega)]
  unfold specFragment
  rw [hf, Option.getD_some]
  have h1 : firstOccur [';'] (l.data.drop i) = some (j - i) :=
    firstOccur_drop i hs' (le_of_lt hij)
  rw [takeWhile_firstOccur h1, List.drop_take]

/-! Lemmas for the interface-file path derivations. -/

theorem slash_notin_sol {b : List Char} (hb : '/' ∉ b) : '/' ∉ b ++ (".sol").data := by
  have hh : '/' ∉ (".sol").data := by decide
  intro hm
  rcases List.mem_append.mp hm with hm | hm
  · exact hb hm
  · exact hh hm

theorem interfaceFilePath_wf {d b : List Char} (hb : '/' ∉ b)
    (hfo : firstOccur (".huff").data (d ++ '/' :: (b ++ (".huff").data))
        = some (d.length + 1 + b.length)) :
    interfaceFilePath ⟨d ++ '/' :: (b ++ (".huff").data)⟩
      = ⟨d ++ '/' :: ('I' :: (b ++ (".sol").data))⟩ := by
  have h5 : (".huff").data.length = 5 := rfl
  have hlen : (d ++ '/' :: (b ++ (".huff").data)).length = d.length + 1 + b.length + 5 := by
    simp [List.length_append, h5]
    omega
  have hdropnil :
      (d ++ '/' :: (b ++ (".huff").data)).drop (d.length + 1 + b.length + (".huff").data.length)
        = [] := by
    apply List.drop_eq_nil_of_le
    omega
  have hrepl : jsReplaceFirst ⟨d ++ '/' :: (b ++ (".huff").data)⟩ ".huff" ".sol"
      = ⟨d ++ '/' :: (b ++ (".sol").data)⟩ := by
    unfold jsReplaceFirst
    rw [show (⟨d ++ '/' :: (b ++ (".huff").data)⟩ : String).data
        = d ++ '/' :: (b ++ (".huff").data) from rfl, hfo]
    apply congrArg String.mk
    rw [take_wf, hdropnil]
    simp
  unfold interfaceFilePath
  rw [hrepl]
  simp only [data_mk]
  rw [lastIdxOfChar_append (slash_notin_sol hb)]
  apply congrArg String.mk
  have htk : (d ++ '/' :: (b ++ (".sol").data)).take (d.length + 1) = d ++ ['/'] := by
    have hassoc : d ++ '/' :: (b ++ (".sol").data) = (d ++ ['/']) ++ (b ++ (".sol").data) := by
      simp
    rw [hassoc]
    exact List.take_left' (by simp)
  rw [htk, drop_wf]
  simp

theorem cleanTargetPath_wf {d b : List Char} (hb : '/' ∉ b)
    (hfo : firstOccur ("huff").data (d ++ '/' :: (b ++ (".huff").data))
        = some (d.length + 2 + b.length)) :
    cleanTargetPath ⟨d ++ '/' :: (b ++ (".huff").data)⟩
      = ⟨d ++ '/' :: ('I' :: (b ++ (".sol").data))⟩ := by
  have h4 : ("huff").data.length = 4 := rfl
  have hlen : (d ++ '/' :: (b ++ (".huff").data)).length = d.length + 1 + b.length + 5 := by
    simp [List.length_append]
    omega
  have hdot : d ++ '/' :: (b ++ (".huff").data)
      = (d ++ '/' :: (b ++ ['.'])) ++ ("huff").data := by
    simp
  have htake : (d ++ '/' :: (b ++ (".huff").data)).take (d.length + 2 + b.length)
      = d ++ '/' :: (b ++ ['.']) := by
    rw [hdot]
    apply List.take_left'
    simp
    omega
  have hdropnil :
      (d ++ '/' :: (b ++ (".huff").data)).drop (d.length + 2 + b.length + ("huff").data.length)
        = [] := by
    apply List.drop_eq_nil_of_le
    omega
  have hrepl : jsReplaceFirst ⟨d ++ '/' :: (b ++ (".huff").data)⟩ "huff" "sol"
      = ⟨d ++ '/' :: (b ++ (".sol").data)⟩ := by
    unfold jsReplaceFirst
    rw [show (⟨d ++ '/' :: (b ++ (".huff").data)⟩ : String).data
        = d ++ '/' :: (b ++ (".huff").data) from rfl, hfo]
    apply congrArg String.mk
    rw [htake, hdropnil]
    simp
  unfold cleanTargetPath
  rw [hrepl]
  have hlast : jsLastIndexOfChar ⟨d ++ '/' :: (b ++ (".sol").data)⟩ '/' = (d.length : Int) := by
    unfold jsLastIndexOfChar
    rw [data_mk, lastIdxOfChar_append (slash_notin_sol hb)]
  simp only [data_mk]
  rw [hlast]
  have hsollen : (d ++ '/' :: (b ++ (".sol").data)).length = d.length + 1 + b.length + 4 := by
    simp [List.length_append]
    omega
  have hc : ((d.length : Int) + 1) = ((d.length + 1 : Nat) : Int) := by push_cast; ring
  have htk : (d ++ '/' :: (b ++ (".sol").data)).take (d.length + 1) = d ++ ['/'] := by
    have hassoc : d ++ '/' :: (b ++ (".sol").data) = (d ++ ['/']) ++ (b ++ (".sol").data) := by
      simp
    rw [hassoc]
    exact List.take_left' (by simp)
  apply string_data_ext
  rw [String.data_append, String.data_append]
  unfold jsSlice jsSliceFrom
  rw [data_mk, data_mk, data_mk, hc]
  have hz : jsSliceData (d ++ '/' :: (b ++ (".sol").data)) ((0 : Nat) : Int)
      ((d.length + 1 : Nat) : Int) = d ++ ['/'] := by
    rw [jsSliceData_nat (by omega) (by omega), htk]
    simp
  have hdr : (d ++ '/' :: (b ++ (".sol").data)).drop
      (jsSliceIdx (d ++ '/' :: (b ++ (".sol").data)).length ((d.length + 1 : Nat) : Int))
        = b ++ (".sol").data := by
    have hidx : jsSliceIdx (d ++ '/' :: (b ++ (".sol").data)).length
        ((d.length + 1 : Nat) : Int) = d.length + 1 := by
      unfold jsSliceIdx
      have hna : ¬ (((d.length + 1 : Nat) : Int) < 0) := by omega
      rw [if_neg hna, Int.toNat_ofNat]
      omega
    rw [hidx, drop_wf]
  rw [show ((0 : Int)) = ((0 : Nat) : Int) from rfl, hz, hdr]
  simp

theorem firstOccur_dotHuff_of_huff {d b : List Char}
    (hfo : firstOccur ("huff").data (d ++ '/' :: (b ++ (".huff").data))
        = some (d.length + 2 + b.length)) :
    firstOccur (".huff").data (d ++ '/' :: (b ++ (".huff").data))
      = some (d.length + 1 + b.length) := by
  have hdrop : (d ++ '/' :: (b ++ (".huff").data)).drop (d.length + 1 + b.length)
      = (".huff").data := by
    have hassoc : d ++ '/' :: (b ++ (".huff").data)
        = (d ++ '/' :: b) ++ (".huff").data := by simp
    rw [hassoc]
    apply List.drop_left'
    simp
    omega
  have hpre : (".huff").data <+: (d ++ '/' :: (b ++ (".huff").data)).drop
      (d.length + 1 + b.length) := by
    rw [hdrop]
  rcases firstOccur_of_prefix hpre with ⟨n, hn, hle⟩
  have hnpre := firstOccur_isPrefix hn
  rcases hnpre with ⟨t, ht⟩
  have hhuff : ("huff").data <+: (d ++ '/' :: (b ++ (".huff").data)).drop (n + 1) := by
    refine ⟨t, ?_⟩
    rw [← List.tail_drop, ← ht]
    rfl
  have hmin := firstOccur_min hfo (n + 1) hhuff
  have hne : n = d.length + 1 + b.length := by omega
  rw [hn, hne]

theorem specSiblingPath_wf {p : String} {d b : List Char} (h : WFPath p d b) :
    specSiblingPath p = ⟨d ++ '/' :: ('I' :: (b ++ (".sol").data))⟩ := by
  unfold specSiblingPath
  rw [wf_lastIdx h, specStem_wf h]
  apply congrArg String.mk
  have htk : p.data.take (d.length + 1) = d ++ ['/'] := by
    rw [h.1]
    have hassoc : d ++ '/' :: (b ++ (".huff").data)
        = (d ++ ['/']) ++ (b ++ (".huff").data) := by simp
    rw [hassoc]
    exact List.take_left' (by simp)
  rw [htk, data_mk]
  simp

theorem ifp_eq_sibling_wf {p : String} {d b : List Char} (h : WFPath p d b) :
    interfaceFilePath p = specSiblingPath p := by
  have hp : p = ⟨d ++ '/' :: (b ++ (".huff").data)⟩ := string_data_ext h.1
  rw [hp] at h ⊢
  rw [interfaceFilePath_wf h.2.1 h.2.2, specSiblingPath_wf h]

/-! Claim theorems. -/

/-- C4: for every defined constructor-argument list, the compiler command
built by getContractBytecode (src/helpers.ts) is exactly "huffc", the file,
the -i flag followed by the arguments joined by single spaces in their
original order, and the bytecode flag; with an undefined argument list the
command is exactly "huffc", the file and the bytecode flag, and (checked on
a representative path) contains no -i flag at all. -/
theorem claim4_confirmed :
    (∀ (p : String) (args : List String),
        buildBytecodeCommand p (some args)
          = "huffc " ++ p ++ " -i " ++ String.intercalate " " args ++ " --bytecode")
    ∧ (∀ p : String, buildBytecodeCommand p none = "huffc " ++ p ++ " --bytecode")
    ∧ jsIncludes (buildBytecodeCommand "contracts/token.huff" none) "-i" = false := by
  refine ⟨fun p args => ?_, fun p => rfl, by decide⟩
  simp only [buildBytecodeCommand]
  rw [jsJoin_eq_intercalate]

/-- C6: whenever the huffc version subprocess reports an error, the deploy
call surfaces the CompilerUnavailable HardhatPluginError, the only effect is
the version check itself (no scan, no read, no write, no deletion), and the
file system is unchanged. -/
theorem claim6_confirmed (env : Env) (target : String) (cargs : Option (List String))
    (h : env.versionErr = true) :
    deployOutcome env target cargs =
      { result := .error (.hardhatPlugin "huff-deployer" huffNotFoundMsg),
        trace := [.execVersion], fs := env.fs0 } := by
  unfold deployOutcome verifyHuffCompiler
  rw [h]
  simp

/-- Witness for C6 at a concrete environment with an absent compiler. -/
theorem claim6_witness :
    ({ mkEnv ["contracts/token.huff"] with versionErr := true } : Env).versionErr = true ∧
    deployOutcome { mkEnv ["contracts/token.huff"] with versionErr := true } "token" none =
      { result := .error (.hardhatPlugin "huff-deployer" huffNotFoundMsg),
        trace := [.execVersion],
        fs := ({ mkEnv ["contracts/token.huff"] with versionErr := true } : Env).fs0 } :=
  ⟨rfl, claim6_confirmed { mkEnv ["contracts/token.huff"] with versionErr := true } "token" none rfl⟩

theorem foldl_renderArgs :
    ∀ (cas : List CompilerArg) (x : String),
      cas.foldl
        (fun acc a =>
          acc ++ " " ++ (if a.full then "--" else "-") ++ toString a.key
            ++ " " ++ toString a.value) x
      = x ++ String.join (cas.map renderCompilerArg) := by
  intro cas
  induction cas with
  | nil => intro x; simp [String.join, String.append_empty]
  | cons a rest ih =>
    intro x
    rw [List.foldl_cons, ih, List.map_cons, string_join_cons, renderCompilerArg]
    simp [String.append_assoc]

/-- C8: for every compiler-flag sequence handed to the HuffDeployer.ts
getContractBytecode, the command equals the flag-free command followed by a
space and then, for each flag in sequence order, its rendering: a space, the
key behind a double dash when the full selector is set and behind a single
dash otherwise, a space, and the value. -/
theorem claim8_confirmed :
    ∀ (p : String) (cargs : Option (List String)) (cas : List CompilerArg),
      buildBytecodeCommandD p cargs (some cas)
        = buildBytecodeCommandD p cargs none ++ " "
            ++ String.join (cas.map renderCompilerArg) := by
  intro p cargs cas
  cases cargs <;>
    (simp only [buildBytecodeCommandD]
     rw [foldl_renderArgs]
     simp [String.append_empty, ← String.append_assoc])

/-- C9: on every successful call of the public entry point
HuffDeployer.deploy, the pipeline it delegates to never performs a file
deletion (its trace holds no unlink effect), and the interface file
generated for the deployed contract is still present in the final file
system. -/
theorem claim9_confirmed (env : Env) (target : String) (cargs : Option (List String))
    (c : Contract) (h : (huffDeployerDeploy env target cargs).result = .ok c) :
    (∀ p, Effect.unlink p ∉ (huffDeployerDeploy env target cargs).trace) ∧
      interfaceFilePath c.path ∈ (huffDeployerDeploy env target cargs).fs := by
  unfold huffDeployerDeploy at h ⊢
  unfold deployOutcome at h ⊢
  cases hv : verifyHuffCompiler env with
  | error e =>
    rw [hv] at h
    simp at h
  | ok u =>
    rcases hl : deployLoop env target cargs env.files none [.execVersion, .scanFiles] env.fs0
      with ⟨r, tr, fs⟩
    have hinv := deployLoop_inv env target cargs env.files none
      [.execVersion, .scanFiles] env.fs0 r tr fs hl
      (by intro p hp; simp at hp) (by intro c hc; simp at hc)
    rw [hv] at h
    cases r with
    | error e =>
      rw [hl] at h
      simp at h
    | ok oc =>
      cases oc with
      | none =>
        rw [hl] at h
        simp at h
      | some c2 =>
        rw [hl] at h
        simp at h
        subst h
        simp
        exact ⟨hinv.1, hinv.2 c2 rfl⟩

/-- Witness for C9 at a concrete successful deployment. -/
theorem claim9_witness :
    (huffDeployerDeploy (mkEnv ["contracts/token.huff"]) "token" none).result
        = .ok { path := "contracts/token.huff", abi := [], bytecode := "60ff" } ∧
    ((∀ p, Effect.unlink p ∉
        (huffDeployerDeploy (mkEnv ["contracts/token.huff"]) "token" none).trace) ∧
      interfaceFilePath ("contracts/token.huff" : String)
        ∈ (huffDeployerDeploy (mkEnv ["contracts/token.huff"]) "token" none).fs) :=
  ⟨by decide,
   claim9_confirmed (mkEnv ["contracts/token.huff"]) "token" none
     { path := "contracts/token.huff", abi := [], bytecode := "60ff" } (by decide)⟩

/-- C1 counterexample: for the discovered list with the single file
"contracts/token.huff.huff" and the request "token", no file's basename
stripped of the ".huff" extension equals the request (the stripped basename
is "token.huff"), yet the pipeline does not raise the not-found error and
does invoke the bytecode compiler, because the loop computes the name from
the FIRST occurrence of ".huff" in the path. -/
theorem claim1_counterexample :
    (∀ f ∈ (mkEnv ["contracts/token.huff.huff"]).files, specMatch "token" f = false) ∧
    (deployOutcome (mkEnv ["contracts/token.huff.huff"]) "token" none).result
        ≠ .error (.hardhatPlugin "HuffDeployer" "Contract token not found.") ∧
    (deployOutcome (mkEnv ["contracts/token.huff.huff"]) "token" none).trace
        ≠ [.execVersion, .scanFiles] ∧
    Effect.execBytecode "huffc contracts/token.huff.huff --bytecode"
        ∈ (deployOutcome (mkEnv ["contracts/token.huff.huff"]) "token" none).trace := by
  decide

/-- C1 amended: assuming the compiler-availability check passes and every
discovered path is well-formed (of the shape dir/base.huff with ".huff"
occurring only as the trailing extension and a slash-free base), if no
discovered file's base name equals the request case-insensitively then the
deploy call raises the HardhatPluginError naming the contract, and its
effect trace is exactly the availability check followed by the file scan
(no compile, no interface generation, no read, no write). -/
theorem claim1_amended (env : Env) (target : String) (cargs : Option (List String))
    (hok : compilerOk env) (hwf : ∀ f ∈ env.files, WF f)
    (hnm : ∀ f ∈ env.files, specMatch target f = false) :
    deployOutcome env target cargs =
      { result := .error (.hardhatPlugin "HuffDeployer"
          ("Contract " ++ target ++ " not found.")),
        trace := [.execVersion, .scanFiles], fs := env.fs0 } := by
  have horacle : ∀ f ∈ env.files, codeMatches target f = true →
      env.bytecodeResult (buildBytecodeCommand f cargs) = .ok (bcOf env cargs f) ∧
      env.interfaceErr f = false ∧ env.deployErr f = none ∧
      interfaceFilePath f = specSiblingPath f := by
    intro f hf hcm
    rw [codeMatches_eq_specMatch (hwf f hf) target, hnm f hf] at hcm
    exact Bool.noConfusion hcm
  have hcm : ∀ f ∈ env.files, codeMatches target f = (fun _ : String => false) f := by
    intro f hf
    rw [codeMatches_eq_specMatch (hwf f hf) target]
    exact hnm f hf
  have hfilter : env.files.filter (fun f => codeMatches target f) = [] := by
    rw [List.filter_congr hcm]
    simp
  rw [deployOutcome_char env target cargs hok horacle, hfilter]
  simp

/-- Witness for the amended C1 at a concrete well-formed environment. -/
theorem claim1_amended_witness :
    compilerOk (mkEnv ["contracts/token.huff"]) ∧
    (∀ f ∈ (mkEnv ["contracts/token.huff"]).files, WF f) ∧
    (∀ f ∈ (mkEnv ["contracts/token.huff"]).files, specMatch "other" f = false) ∧
    deployOutcome (mkEnv ["contracts/token.huff"]) "other" none =
      { result := .error (.hardhatPlugin "HuffDeployer"
          ("Contract " ++ "other" ++ " not found.")),
        trace := [.execVersion, .scanFiles], fs := (mkEnv ["contracts/token.huff"]).fs0 } := by
  have hwfW : ∀ f ∈ (mkEnv ["contracts/token.huff"]).files, WF f := by
    intro f hf
    simp [mkEnv] at hf
    subst hf
    exact ⟨"contracts".data, "token".data, by decide⟩
  exact ⟨⟨rfl, by decide⟩, hwfW, by decide,
    claim1_amended (mkEnv ["contracts/token.huff"]) "other" none ⟨rfl, by decide⟩ hwfW
      (by decide)⟩

/-- C2 counterexample: the discovered list holding exactly the file
"contracts/token.huff.huff", whose basename stripped of the trailing ".huff"
extension is "token.huff", is requested as "token.huff"; the claim says this
single matching file is selected and compiled, but the pipeline raises the
not-found error having invoked nothing beyond the version check and the
scan, because the loop computes the name "token" from the FIRST occurrence
of ".huff". -/
theorem claim2_counterexample :
    specMatch "token.huff" "contracts/token.huff.huff" = true ∧
    deployOutcome (mkEnv ["contracts/token.huff.huff"]) "token.huff" none =
      { result := .error (.hardhatPlugin "HuffDeployer" "Contract token.huff not found."),
        trace := [.execVersion, .scanFiles], fs := [] } := by
  decide

/-- C2 amended: with well-formed discovered paths and exactly one file whose
base name matches the request case-insensitively, and with the compiler
check and the per-file oracles succeeding, the pipeline compiles and
deploys exactly that file (its full effect block appears once after the
check and the scan, the returned handle stems from it, and its interface
path is the single file-system addition); moreover the whole outcome is
unchanged under any recasing of the requested name. -/
theorem claim2_amended (env : Env) (target t2 : String) (cargs : Option (List String))
    (m : String)
    (hok : compilerOk env) (hwf : ∀ f ∈ env.files, WF f)
    (hone : env.files.filter (fun f => specMatch target f) = [m])
    (hbc : env.bytecodeResult (buildBytecodeCommand m cargs) = .ok (bcOf env cargs m))
    (hie : env.interfaceErr m = false) (hde : env.deployErr m = none)
    (ht2 : jsToLower t2 = jsToLower target) :
    deployOutcome env target cargs =
      { result := .ok (contractOf env cargs m),
        trace := [.execVersion, .scanFiles] ++ matchBlock env cargs m,
        fs := insertFile (interfaceFilePath m) env.fs0 } ∧
    deployOutcome env t2 cargs = deployOutcome env target cargs := by
  have hcs : ∀ f ∈ env.files, codeMatches target f = specMatch target f := fun f hf =>
    codeMatches_eq_specMatch (hwf f hf) target
  have hfilter : env.files.filter (fun f => codeMatches target f) = [m] := by
    rw [List.filter_congr hcs]
    exact hone
  have horacle : ∀ f ∈ env.files, codeMatches target f = true →
      env.bytecodeResult (buildBytecodeCommand f cargs) = .ok (bcOf env cargs f) ∧
      env.interfaceErr f = false ∧ env.deployErr f = none ∧
      interfaceFilePath f = specSiblingPath f := by
    intro f hf hcmf
    have hmem : f ∈ env.files.filter (fun f => codeMatches target f) :=
      List.mem_filter.mpr ⟨hf, hcmf⟩
    rw [hfilter] at hmem
    simp at hmem
    subst hmem
    obtain ⟨d, b, hw⟩ := hwf _ hf
    exact ⟨hbc, hie, hde, ifp_eq_sibling_wf hw⟩
  have h1 := deployOutcome_char env target cargs hok horacle
  rw [hfilter] at h1
  have hmain : deployOutcome env target cargs =
      { result := .ok (contractOf env cargs m),
        trace := [.execVersion, .scanFiles] ++ matchBlock env cargs m,
        fs := insertFile (interfaceFilePath m) env.fs0 } := by
    rw [h1]
    simp
  have hct : ∀ f, codeMatches t2 f = codeMatches target f := by
    intro f
    unfold codeMatches
    rw [ht2]
  have hfilter2 : env.files.filter (fun f => codeMatches t2 f) = [m] := by
    rw [List.filter_congr (fun f _ => hct f)]
    exact hfilter
  have horacle2 : ∀ f ∈ env.files, codeMatches t2 f = true →
      env.bytecodeResult (buildBytecodeCommand f cargs) = .ok (bcOf env cargs f) ∧
      env.interfaceErr f = false ∧ env.deployErr f = none ∧
      interfaceFilePath f = specSiblingPath f := by
    intro f hf hcmf
    exact horacle f hf (by rw [← hct f]; exact hcmf)
  have h2 := deployOutcome_char env t2 cargs hok horacle2
  rw [hfilter2] at h2
  refine ⟨hmain, ?_⟩
  rw [h2, hmain]
  simp

/-- Witness for the amended C2: a single file token.huff, requested with
two different casings. -/
theorem claim2_amended_witness :
    compilerOk (mkEnv ["contracts/token.huff"]) ∧
    (∀ f ∈ (mkEnv ["contracts/token.huff"]).files, WF f) ∧
    (mkEnv ["contracts/token.huff"]).files.filter
        (fun f => specMatch "Token" f) = ["contracts/token.huff"] ∧
    (mkEnv ["contracts/token.huff"]).bytecodeResult
        (buildBytecodeCommand "contracts/token.huff" none)
      = .ok (bcOf (mkEnv ["contracts/token.huff"]) none "contracts/token.huff") ∧
    (mkEnv ["contracts/token.huff"]).interfaceErr "contracts/token.huff" = false ∧
    (mkEnv ["contracts/token.huff"]).deployErr "contracts/token.huff" = none ∧
    jsToLower "TOKEN" = jsToLower "Token" ∧
    (deployOutcome (mkEnv ["contracts/token.huff"]) "Token" none =
      { result := .ok (contractOf (mkEnv ["contracts/token.huff"]) none "contracts/token.huff"),
        trace := [.execVersion, .scanFiles]
          ++ matchBlock (mkEnv ["contracts/token.huff"]) none "contracts/token.huff",
        fs := insertFile (interfaceFilePath "contracts/token.huff")
          (mkEnv ["contracts/token.huff"]).fs0 } ∧
    deployOutcome (mkEnv ["contracts/token.huff"]) "TOKEN" none
      = deployOutcome (mkEnv ["contracts/token.huff"]) "Token" none) := by
  have hwfW : ∀ f ∈ (mkEnv ["contracts/token.huff"]).files, WF f := by
    intro f hf
    simp [mkEnv] at hf
    subst hf
    exact ⟨"contracts".data, "token".data, by decide⟩
  exact ⟨⟨rfl, by decide⟩, hwfW, by decide, by decide, rfl, rfl, by decide,
    claim2_amended (mkEnv ["contracts/token.huff"]) "Token" "TOKEN" none
      "contracts/token.huff" ⟨rfl, by decide⟩ hwfW (by decide) (by decide) rfl rfl
      (by decide)⟩

/-- C3 counterexample: on the single-line interface text "; function f();"
the line contains the keyword and a terminator after the keyword (satisfying
the claim's hypothesis), the span from the keyword to the first terminator
from there on is "function f()", yet getContractAbi returns the empty
fragment, because the code slices up to the first semicolon of the WHOLE
line, which precedes the keyword. -/
theorem claim3_counterexample :
    jsIncludes "; function f();" "function" = true ∧
    (firstOccur (";").data (("; function f();").data.drop 10)).isSome = true ∧
    specFragment "; function f();" = "function f()" ∧
    extractAbi "; function f();" = [""] ∧
    extractAbi "; function f();" ≠ [specFragment "; function f();"] := by
  decide

/-- C3 amended: on interface text whose every keyword line has its first
semicolon after the first occurrence of "function", getContractAbi returns
exactly one fragment per such line, in line order, each equal to the span
from the first occurrence of "function" up to but excluding the first
following semicolon. -/
theorem claim3_amended (content : String)
    (h : ∀ l ∈ jsLines content, jsIncludes l "function" = true →
        jsIndexOf l "function" < jsIndexOf l ";") :
    extractAbi content
      = ((jsLines content).filter (fun l => jsIncludes l "function")).map specFragment := by
  unfold extractAbi
  apply List.map_congr_left
  intro l hl
  have hmem := List.mem_filter.mp hl
  have hinc : (firstOccur ("function").data l.data).isSome = true := hmem.2
  have hlt := h l hmem.1 hmem.2
  rcases Option.isSome_iff_exists.mp hinc with ⟨i, hi⟩
  cases hj : firstOccur (";").data l.data with
  | none =>
    exfalso
    unfold jsIndexOf at hlt
    rw [hi, hj] at hlt
    simp at hlt
    omega
  | some j =>
    have hij : i < j := by
      unfold jsIndexOf at hlt
      rw [hi, hj] at hlt
      simp at hlt
      exact_mod_cast hlt
    exact fragment_eq hi hj hij

/-- Witness for the amended C3 on a three-line interface text with two
keyword lines. -/
theorem claim3_amended_witness :
    (∀ l ∈ jsLines "function f() external;\nconstant X\nfunction g();",
        jsIncludes l "function" = true → jsIndexOf l "function" < jsIndexOf l ";") ∧
    extractAbi "function f() external;\nconstant X\nfunction g();"
      = ((jsLines "function f() external;\nconstant X\nfunction g();").filter
          (fun l => jsIncludes l "function")).map specFragment :=
  ⟨by decide,
   claim3_amended "function f() external;\nconstant X\nfunction g();" (by decide)⟩

/-- C5 counterexample: for the source path "contracts/a.huff/token.huff",
whose directory component contains ".huff", the path getContractAbi reads is
"contracts/a.sol/Itoken.huff" (the replacement hits the FIRST occurrence of
".huff", inside the directory), not the claimed "contracts/a.huff/Itoken.sol"
obtained by keeping the directory and substituting the extension. -/
theorem claim5_counterexample :
    interfaceFilePath "contracts/a.huff/token.huff" = "contracts/a.sol/Itoken.huff" ∧
    interfaceFilePath "contracts/a.huff/token.huff" ≠ "contracts/a.huff/Itoken.sol" ∧
    (getContractAbi (mkEnv []) [] "contracts/a.huff/token.huff").2
        = [.readFile "contracts/a.sol/Itoken.huff"] := by
  decide

/-- C5 amended: for every source path of the shape dir/base.huff in which
".huff" occurs only as the trailing extension of the slash-free base,
getContractAbi reads exactly the sibling path with the same directory, the
base prefixed by the letter I, and the extension replaced by ".sol". -/
theorem claim5_amended (env : Env) (fs : List String) (d b : List Char)
    (hb : '/' ∉ b)
    (hfo : firstOccur (".huff").data (d ++ '/' :: (b ++ (".huff").data))
        = some (d.length + 1 + b.length)) :
    (getContractAbi env fs ⟨d ++ '/' :: (b ++ (".huff").data)⟩).2
      = [.readFile ⟨d ++ '/' :: ('I' :: (b ++ (".sol").data))⟩] := by
  rw [getContractAbi_effects, interfaceFilePath_wf hb hfo]

/-- Witness for the amended C5 at the path "contracts/token.huff". -/
theorem claim5_amended_witness :
    ('/' ∉ ("token").data) ∧
    firstOccur (".huff").data
        ("contracts".data ++ '/' :: (("token").data ++ (".huff").data))
      = some (("contracts").data.length + 1 + ("token").data.length) ∧
    (getContractAbi (mkEnv []) []
        ⟨"contracts".data ++ '/' :: (("token").data ++ (".huff").data)⟩).2
      = [.readFile ⟨"contracts".data ++ '/' :: ('I' :: (("token").data ++ (".sol").data))⟩] :=
  ⟨by decide, by decide,
   claim5_amended (mkEnv []) [] "contracts".data "token".data (by decide) (by decide)⟩

/-- C7 counterexample: with the discovered list a/token.huff, b/token.huff,
c/token.huff.huff and the request "token", the files matching the claim's
basename criterion are the first two, yet the pipeline also runs the
compile step for the third (whose stripped basename is "token.huff")
because the loop derives "token" from the FIRST ".huff" occurrence; for
that third file the code then reads contracts/c/Itoken.sol.huff while the
compiler wrote the spec-convention sibling contracts/c/Itoken.huff.sol, so
the read fails with ENOENT and the whole call errors — it returns no
handle at all, in particular not one produced from the last matching
file. -/
theorem claim7_counterexample :
    (mkEnv ["contracts/a/token.huff", "contracts/b/token.huff",
        "contracts/c/token.huff.huff"]).files.filter (fun f => specMatch "token" f)
      = ["contracts/a/token.huff", "contracts/b/token.huff"] ∧
    Effect.execBytecode "huffc contracts/c/token.huff.huff --bytecode"
      ∈ (deployOutcome (mkEnv ["contracts/a/token.huff", "contracts/b/token.huff",
          "contracts/c/token.huff.huff"]) "token" none).trace ∧
    (deployOutcome (mkEnv ["contracts/a/token.huff", "contracts/b/token.huff",
        "contracts/c/token.huff.huff"]) "token" none).result
      = .error (.jsError
          "ENOENT: no such file or directory, open contracts/c/Itoken.sol.huff") := by
  decide

/-- C7 amended: with well-formed discovered paths, a passing compiler check
and succeeding oracles on every matching file, when two or more files match
the request case-insensitively the pipeline runs the full
compile/interface/read/deploy block once per matching file in discovery
order, and the returned handle is the one produced from the last matching
file. -/
theorem claim7_amended (env : Env) (target : String) (cargs : Option (List String))
    (m : String)
    (hok : compilerOk env) (hwf : ∀ f ∈ env.files, WF f)
    (hor : ∀ f ∈ env.files, specMatch target f = true →
        env.bytecodeResult (buildBytecodeCommand f cargs) = .ok (bcOf env cargs f) ∧
        env.interfaceErr f = false ∧ env.deployErr f = none)
    (_htwo : 2 ≤ (env.files.filter (fun f => specMatch target f)).length)
    (hlast : (env.files.filter (fun f => specMatch target f)).getLast? = some m) :
    deployOutcome env target cargs =
      { result := .ok (contractOf env cargs m),
        trace := [.execVersion, .scanFiles] ++
          (env.files.filter (fun f => specMatch target f)).flatMap (matchBlock env cargs),
        fs := (env.files.filter (fun f => specMatch target f)).foldl
          (fun s f => insertFile (interfaceFilePath f) s) env.fs0 } := by
  have hcs : ∀ f ∈ env.files, codeMatches target f = specMatch target f := fun f hf =>
    codeMatches_eq_specMatch (hwf f hf) target
  have hfilter : env.files.filter (fun f => codeMatches target f)
      = env.files.filter (fun f => specMatch target f) := List.filter_congr hcs
  have horacle : ∀ f ∈ env.files, codeMatches target f = true →
      env.bytecodeResult (buildBytecodeCommand f cargs) = .ok (bcOf env cargs f) ∧
      env.interfaceErr f = false ∧ env.deployErr f = none ∧
      interfaceFilePath f = specSiblingPath f := by
    intro f hf hcmf
    obtain ⟨hbc, hie, hde⟩ := hor f hf (by rw [← hcs f hf]; exact hcmf)
    obtain ⟨d, b, hw⟩ := hwf f hf
    exact ⟨hbc, hie, hde, ifp_eq_sibling_wf hw⟩
  have h1 := deployOutcome_char env target cargs hok horacle
  rw [hfilter, hlast] at h1
  rw [h1]

/-- Witness for the amended C7: two well-formed files with the same base
name in different directories; the handle stems from the second. -/
theorem claim7_amended_witness :
    compilerOk (mkEnv ["contracts/a/token.huff", "contracts/b/token.huff"]) ∧
    (∀ f ∈ (mkEnv ["contracts/a/token.huff", "contracts/b/token.huff"]).files, WF f) ∧
    (∀ f ∈ (mkEnv ["contracts/a/token.huff", "contracts/b/token.huff"]).files,
        specMatch "token" f = true →
        (mkEnv ["contracts/a/token.huff", "contracts/b/token.huff"]).bytecodeResult
            (buildBytecodeCommand f none)
          = .ok (bcOf (mkEnv ["contracts/a/token.huff", "contracts/b/token.huff"]) none f) ∧
        (mkEnv ["contracts/a/token.huff", "contracts/b/token.huff"]).interfaceErr f = false ∧
        (mkEnv ["contracts/a/token.huff", "contracts/b/token.huff"]).deployErr f = none) ∧
    2 ≤ ((mkEnv ["contracts/a/token.huff", "contracts/b/token.huff"]).files.filter
        (fun f => specMatch "token" f)).length ∧
    ((mkEnv ["contracts/a/token.huff", "contracts/b/token.huff"]).files.filter
        (fun f => specMatch "token" f)).getLast? = some "contracts/b/token.huff" ∧
    deployOutcome (mkEnv ["contracts/a/token.huff", "contracts/b/token.huff"]) "token" none =
      { result := .ok (contractOf (mkEnv ["contracts/a/token.huff", "contracts/b/token.huff"])
          none "contracts/b/token.huff"),
        trace := [.execVersion, .scanFiles] ++
          ((mkEnv ["contracts/a/token.huff", "contracts/b/token.huff"]).files.filter
            (fun f => specMatch "token" f)).flatMap
              (matchBlock (mkEnv ["contracts/a/token.huff", "contracts/b/token.huff"]) none),
        fs := ((mkEnv ["contracts/a/token.huff", "contracts/b/token.huff"]).files.filter
            (fun f => specMatch "token" f)).foldl
          (fun s f => insertFile (interfaceFilePath f) s)
          (mkEnv ["contracts/a/token.huff", "contracts/b/token.huff"]).fs0 } := by
  have hwfW : ∀ f ∈ (mkEnv ["contracts/a/token.huff", "contracts/b/token.huff"]).files, WF f := by
    intro f hf
    simp [mkEnv] at hf
    rcases hf with hf | hf
    · subst hf
      exact ⟨"contracts/a".data, "token".data, by decide⟩
    · subst hf
      exact ⟨"contracts/b".data, "token".data, by decide⟩
  have horW : ∀ f ∈ (mkEnv ["contracts/a/token.huff", "contracts/b/token.huff"]).files,
      specMatch "token" f = true →
      (mkEnv ["contracts/a/token.huff", "contracts/b/token.huff"]).bytecodeResult
          (buildBytecodeCommand f none)
        = .ok (bcOf (mkEnv ["contracts/a/token.huff", "contracts/b/token.huff"]) none f) ∧
      (mkEnv ["contracts/a/token.huff", "contracts/b/token.huff"]).interfaceErr f = false ∧
      (mkEnv ["contracts/a/token.huff", "contracts/b/token.huff"]).deployErr f = none := by
    intro f hf _
    exact ⟨rfl, rfl, rfl⟩
  exact ⟨⟨rfl, by decide⟩, hwfW, horW, by decide, by decide,
    claim7_amended (mkEnv ["contracts/a/token.huff", "contracts/b/token.huff"]) "token" none
      "contracts/b/token.huff" ⟨rfl, by decide⟩ hwfW horW (by decide) (by decide)⟩

/-- C10 counterexample: on the slash-free path "token.huff", in which "huff"
first occurs in the trailing ".huff" extension, clean deletes "Itoken.sol"
(lastIndexOf returns -1, so the letter I is prepended to the whole string)
while getContractAbi reads "token.sol" (the regular expression requires a
slash and fails to match, inserting nothing), so the two paths differ. -/
theorem claim10_counterexample :
    firstOccur ("huff").data ("token.huff").data = some 6 ∧
    ("token.huff").data.length = 10 ∧
    cleanTargetPath "token.huff" = "Itoken.sol" ∧
    interfaceFilePath "token.huff" = "token.sol" ∧
    cleanTargetPath "token.huff" ≠ interfaceFilePath "token.huff" := by
  decide

/-- C10 amended: for every path of the shape dir/base.huff containing a
slash, with slash-free base, in which "huff" first occurs in the trailing
".huff" extension, the path clean unlinks equals the interface-file path
getContractAbi reads. -/
theorem claim10_amended (d b : List Char) (hb : '/' ∉ b)
    (hfo : firstOccur ("huff").data (d ++ '/' :: (b ++ (".huff").data))
        = some (d.length + 2 + b.length)) :
    cleanTargetPath ⟨d ++ '/' :: (b ++ (".huff").data)⟩
      = interfaceFilePath ⟨d ++ '/' :: (b ++ (".huff").data)⟩ := by
  rw [cleanTargetPath_wf hb hfo, interfaceFilePath_wf hb (firstOccur_dotHuff_of_huff hfo)]

/-- Witness for the amended C10 at the path "contracts/token.huff". -/
theorem claim10_amended_witness :
    ('/' ∉ ("token").data) ∧
    firstOccur ("huff").data
        ("contracts".data ++ '/' :: (("token").data ++ (".huff").data))
      = some (("contracts").data.length + 2 + ("token").data.length) ∧
    cleanTargetPath ⟨"contracts".data ++ '/' :: (("token").data ++ (".huff").data)⟩
      = interfaceFilePath ⟨"contracts".data ++ '/' :: (("token").data ++ (".huff").data)⟩ :=
  ⟨by decide, by decide,
   claim10_amended "contracts".data "token".data (by decide) (by decide)⟩
